import Mathlib

/-!
# Verification of the bgremover alpha-mask refinement pipeline

This file is a shallow embedding, in Lean 4, of the image post-processing
stages of the bgremover repository, together with theorems settling the
frozen specification claims about them.

The embedded code comes from four Python sources:

* `bgremover.py` (namespace `BGRemover`): `fix_partial_transparencies`,
  `connect_character_elements`, `remove_background_whites_only`,
  `smooth_edges_preserve`;
* `bg_remover.py` (namespace `Isnet`): `connect_components`,
  `remove_white_pixels`, `smooth_edges`, and the entry point
  `remove_background_isnet`;
* `archive/bg_remover_clean.py` (namespace `Clean`):
  `clean_partial_transparencies`, `connect_main_components`,
  `remove_white_pixels_advanced`, `smooth_edges_conservative`;
* `bgremover_package/core.py` (namespace `Core`): the `BackgroundRemover`
  methods `_fix_partial_transparencies`, `_connect_character_elements`,
  `_remove_background_whites_only`, `_smooth_edges_conservative`,
  `_preserve_elements_pipeline` and `remove_background`.

Modelling conventions:

* A numpy `(h, w, 4)` uint8 array is a function `Fin h → Fin w → Pix`
  where `Pix` holds four natural numbers; the uint8 range `≤ 255` is a
  hypothesis where a theorem needs it.
* numpy float arithmetic (luminosity, saturation, Gaussian blur,
  percentiles, area percentages) is embedded as exact rational
  arithmetic over `ℚ`.
* `cv2.connectedComponents` is an external collaborator: the stage
  functions take its result `(num, labels)` as parameters, and theorems
  constrain those parameters by the contract `LabelsSpec` (labels are
  `0` exactly on background, equal exactly on 8-connected pixels, and
  fill `1 .. num-1`).
* `cv2.GaussianBlur` with a 3×3 kernel is a separable convolution with
  `BORDER_REFLECT_101` border handling; the 1-D kernel is
  `[c, 1, c] / (1 + 2c)` where `c` stands for `exp (-1 / (2 σ²))`, kept
  as a rational parameter (the transcendental value itself has no exact
  rational embedding; each theorem holds for every `c` in the stated
  range).
-/

/-- An RGBA pixel: three 8-bit colour channels and the 8-bit opacity,
represented as natural numbers. -/
@[ext]
structure Pix where
  r : Nat
  g : Nat
  b : Nat
  a : Nat
deriving DecidableEq

/-- An RGBA raster image of height `h` and width `w`, i.e. a numpy array
of shape `(h, w, 4)`. -/
abbrev Img (h w : Nat) := Fin h → Fin w → Pix

/-- Every channel of the pixel is in the uint8 range. -/
def Pix.valid (p : Pix) : Prop := p.r ≤ 255 ∧ p.g ≤ 255 ∧ p.b ≤ 255 ∧ p.a ≤ 255

/-- Every pixel of the image is in the uint8 range. -/
def Img.valid {h w : Nat} (img : Img h w) : Prop := ∀ i j, (img i j).valid

/-- First in-place write shared by both transparency resolvers: the mask
`(alpha > 0) & (alpha < threshold)` is zeroed (`bgremover.py` line 185,
`bg_remover_clean.py` line 148). -/
def noiseStep (t a : Nat) : Nat := if 0 < a ∧ a < t then 0 else a

namespace BGRemover

/-- Alpha transform of `fix_partial_transparencies` (`bgremover.py` lines
166-202): after the noise write, the mask
`(alpha >= min_threshold) & (alpha < 255)` — computed on the already
updated alpha view — is set to 255. -/
def fixAlpha (t a : Nat) : Nat :=
  if t ≤ noiseStep t a ∧ noiseStep t a < 255 then 255 else noiseStep t a

/-- Embedding of `fix_partial_transparencies` (`bgremover.py` lines 166-202): the
preserve-policy Ambiguous-Region Resolver; writes only channel 3. -/
def fix_partial_transparencies {h w : Nat} (t : Nat) (img : Img h w) : Img h w :=
  fun i j => { img i j with a := fixAlpha t (img i j).a }

end BGRemover

namespace Clean

/-- Alpha transform of `clean_partial_transparencies`
(`bg_remover_clean.py` lines 127-159): after the noise write, the mask
`alpha >= threshold` — computed on the already updated alpha view — is
set to 255. -/
def cleanAlpha (t a : Nat) : Nat :=
  if t ≤ noiseStep t a then 255 else noiseStep t a

/-- Embedding of `clean_partial_transparencies` (`bg_remover_clean.py` lines 127-159):
the eliminate-policy Ambiguous-Region Resolver; writes only channel 3. -/
def clean_partial_transparencies {h w : Nat} (t : Nat) (img : Img h w) : Img h w :=
  fun i j => { img i j with a := cleanAlpha t (img i j).a }

end Clean

/-- Transparency Classifier class: background (opacity 0). -/
def isBackground (a : Nat) : Prop := a = 0

/-- Transparency Classifier class: ambiguous (opacity strictly between 0
and the threshold), matching the mask `(alpha > 0) & (alpha < threshold)`
of both resolvers. -/
def isAmbiguous (t a : Nat) : Prop := 0 < a ∧ a < t

/-- Transparency Classifier class: foreground (visible opacity at or above
the threshold), matching the mask `alpha >= threshold` on visible pixels. -/
def isForeground (t a : Nat) : Prop := 0 < a ∧ t ≤ a

/-- Luminance `0.299 R + 0.587 G + 0.114 B` as an exact rational
(the scripts compute it in numpy floats). -/
def lumQ (p : Pix) : ℚ := (299 * p.r + 587 * p.g + 114 * p.b : ℚ) / 1000

/-- Saturation proxy `(max(R,G,B) - min(R,G,B)) / max(R,G,B)`, left at the
array initialisation value 0 when the maximum channel is 0. -/
def satQ (p : Pix) : ℚ :=
  if 0 < max p.r (max p.g p.b) then
    ((max p.r (max p.g p.b) : ℚ) - min p.r (min p.g p.b)) / max p.r (max p.g p.b)
  else 0

/-- The luminosity array of the white-pixel filters: initialised to zeros,
then filled at the visible pixels only. -/
def lumArr {h w : Nat} (img : Img h w) (i : Fin h) (j : Fin w) : ℚ :=
  if 0 < (img i j).a then lumQ (img i j) else 0

/-- The saturation array of the white-pixel filters: initialised to zeros,
then filled at the visible pixels only. -/
def satArr {h w : Nat} (img : Img h w) (i : Fin h) (j : Fin w) : ℚ :=
  if 0 < (img i j).a then satQ (img i j) else 0

/-- The 10-pixel border band of `remove_background_whites_only`
(`bgremover.py` lines 292-299); numpy slices `[:10]` and `[-10:]` cover
the whole axis when its extent is at most 10, which truncated
subtraction reproduces. -/
def borderMask (h w : Nat) (i : Fin h) (j : Fin w) : Prop :=
  (i : Nat) < 10 ∨ h - 10 ≤ (i : Nat) ∨ (j : Nat) < 10 ∨ w - 10 ≤ (j : Nat)

instance (h w : Nat) (i : Fin h) (j : Fin w) : Decidable (borderMask h w i j) := by
  unfold borderMask; infer_instance

namespace BGRemover

/-- Embedding of `remove_background_whites_only` (`bgremover.py` lines 256-311):
zeroes the opacity of visible pixels with luminance above 245,
saturation below 0.05 and position inside the 10-pixel border band;
returns the image unchanged when no pixel is visible. -/
def remove_background_whites_only {h w : Nat} (img : Img h w) : Img h w :=
  if ∃ i j, 0 < (img i j).a then
    fun i j =>
      if 245 < lumArr img i j ∧ satArr img i j < 1/20 ∧ 0 < (img i j).a ∧
          borderMask h w i j
      then { img i j with a := 0 } else img i j
  else img

end BGRemover

namespace Clean

/-- Embedding of `remove_white_pixels_advanced` (`bg_remover_clean.py` lines 219-255):
zeroes the opacity of visible pixels with luminance above 235 and
saturation below 0.15; returns the image unchanged when no pixel is
visible. -/
def remove_white_pixels_advanced {h w : Nat} (img : Img h w) : Img h w :=
  if ∃ i j, 0 < (img i j).a then
    fun i j =>
      if 235 < lumArr img i j ∧ satArr img i j < 3/20 ∧ 0 < (img i j).a
      then { img i j with a := 0 } else img i j
  else img

end Clean

namespace Core

/-- Embedding of `_remove_background_whites_only` (`core.py` lines 221-233): zeroes the
opacity of pixels whose three colour channels all exceed 240 and whose
opacity is below 200. -/
def remove_background_whites_only {h w : Nat} (img : Img h w) : Img h w :=
  fun i j =>
    if (240 < (img i j).r ∧ 240 < (img i j).g ∧ 240 < (img i j).b) ∧
        (img i j).a < 200
    then { img i j with a := 0 } else img i j

end Core

/-- Insert into an ascending list (helper of `sortAsc`). -/
def insertAsc (x : ℚ) : List ℚ → List ℚ
  | [] => [x]
  | y :: ys => if x ≤ y then x :: y :: ys else y :: insertAsc x ys

/-- Ascending insertion sort, standing for the sort inside
`np.percentile`. -/
def sortAsc : List ℚ → List ℚ
  | [] => []
  | x :: xs => insertAsc x (sortAsc xs)

/-- Embedding of `np.percentile(values, 95)` with its default linear interpolation:
the value at fractional rank `0.95 * (n - 1)` of the ascending sort. -/
def percentile95 (l : List ℚ) : ℚ :=
  let s := sortAsc l
  let rank : ℚ := 95 * ((l.length : ℚ) - 1) / 100
  let lo := (Int.floor rank).toNat
  let hi := (Int.ceil rank).toNat
  s.getD lo 0 + (rank - Int.floor rank) * (s.getD hi 0 - s.getD lo 0)

/-- The list `luminosity[visible_mask]` in raster order: the luminance of
every visible pixel. -/
def visibleLums {h w : Nat} (img : Img h w) : List ℚ :=
  (List.finRange h).flatMap fun i =>
    (List.finRange w).filterMap fun j =>
      if 0 < (img i j).a then some (lumQ (img i j)) else none

namespace Isnet

/-- Embedding of `remove_white_pixels` (`bg_remover.py` lines 157-182): zeroes the
opacity of visible pixels whose luminance exceeds
`max(percentile95(visible luminances), 240)`; there is no saturation
test in this variant. -/
def remove_white_pixels {h w : Nat} (img : Img h w) : Img h w :=
  if ∃ i j, 0 < (img i j).a then
    if 0 < (visibleLums img).length then
      fun i j =>
        if max (percentile95 (visibleLums img)) 240 < lumArr img i j ∧
            0 < (img i j).a
        then { img i j with a := 0 } else img i j
    else img
  else img

end Isnet


/-- Outcomes of the external calls made by a pipeline invocation: whether
the input path exists (`os.path.exists`), and whether the file read, the
`rembg.remove` segmentation call, the PIL decode of its output, and the
final PIL save each succeed.  The numpy refinement stages are total
functions in this embedding, so only these external calls can fail; the
PIL save is modelled as atomic (it is the external Compositor). -/
structure RunEnv where
  inputExists : Bool
  readOk : Bool
  segmentOk : Bool
  decodeOk : Bool
  saveOk : Bool
deriving DecidableEq

/-- All external calls of the invocation succeed. -/
def RunEnv.allOk (e : RunEnv) : Bool :=
  e.inputExists && e.readOk && e.segmentOk && e.decodeOk && e.saveOk

namespace Isnet

/-- Control flow of `remove_background_isnet` (`bg_remover.py` lines
34-110): a missing input returns False before anything is written; any
exception lands in the except-branch which returns False; the output
file is written by the final save, after every stage has run.  The
result is the pair (returned boolean, whether the output file was
written). -/
def remove_background_isnet (e : RunEnv) : Bool × Bool :=
  if e.inputExists then
    if e.readOk then
      if e.segmentOk then
        if e.decodeOk then
          if e.saveOk then (true, true) else (false, false)
        else (false, false)
      else (false, false)
    else (false, false)
  else (false, false)

end Isnet

namespace Core

/-- Control flow of `BackgroundRemover.remove_background` (`core.py`
lines 57-128), which has the same validate / read / segment / decode /
process / save shape as `remove_background_isnet`, returning False from
its except-branch. -/
def remove_background (e : RunEnv) : Bool × Bool :=
  if e.inputExists then
    if e.readOk then
      if e.segmentOk then
        if e.decodeOk then
          if e.saveOk then (true, true) else (false, false)
        else (false, false)
      else (false, false)
    else (false, false)
  else (false, false)

end Core


/-- 8-adjacency of two distinct grid positions: both coordinates differ
by at most one. -/
def adj8 {h w : Nat} (p q : Fin h × Fin w) : Prop :=
  p ≠ q ∧ ((p.1 : Int) - (q.1 : Int)).natAbs ≤ 1 ∧
    ((p.2 : Int) - (q.2 : Int)).natAbs ≤ 1

instance {h w : Nat} (p q : Fin h × Fin w) : Decidable (adj8 p q) := by
  unfold adj8; infer_instance

/-- The set of visible positions of the binary mask `alpha > 0`. -/
def fgSet {h w : Nat} (img : Img h w) : Finset (Fin h × Fin w) :=
  Finset.univ.filter fun p => 0 < (img p.1 p.2).a

/-- One closure step of 8-connectivity: add every visible position
adjacent to the current set. -/
def growStep {h w : Nat} (img : Img h w) (s : Finset (Fin h × Fin w)) :
    Finset (Fin h × Fin w) :=
  s ∪ (fgSet img).filter fun q => ∃ r ∈ s, adj8 r q

/-- The 8-connected component of `p` in the binary mask `alpha > 0`
(empty when `p` is background); `h * w` closure steps saturate. -/
def compOf {h w : Nat} (img : Img h w) (p : Fin h × Fin w) :
    Finset (Fin h × Fin w) :=
  (growStep img)^[h * w] ((fgSet img).filter fun q => q = p)

/-- Position `q` lies in the 8-connected component of `p`. -/
def sameComp {h w : Nat} (img : Img h w) (p q : Fin h × Fin w) : Prop :=
  q ∈ compOf img p

instance {h w : Nat} (img : Img h w) (p q : Fin h × Fin w) :
    Decidable (sameComp img p q) := by
  unfold sameComp; infer_instance

/-- Contract of the external `cv2.connectedComponents` call on the binary
mask `alpha > 0`: label 0 is exactly the background, two visible pixels
share a label exactly when they are 8-connected, all labels are below
`num`, every label in `1 .. num-1` is used, and `num ≥ 1`. -/
def LabelsSpec {h w : Nat} (img : Img h w) (num : Nat)
    (labels : Fin h × Fin w → Nat) : Prop :=
  (∀ p, labels p = 0 ↔ (img p.1 p.2).a = 0) ∧
  (∀ p q, 0 < (img p.1 p.2).a → 0 < (img q.1 q.2).a →
    (labels p = labels q ↔ sameComp img p q)) ∧
  (∀ p, labels p < num) ∧
  (∀ i, 1 ≤ i → i < num → ∃ p, labels p = i) ∧
  1 ≤ num

instance {h w : Nat} (img : Img h w) (num : Nat)
    (labels : Fin h × Fin w → Nat) : Decidable (LabelsSpec img num labels) := by
  unfold LabelsSpec; infer_instance

/-- Embedding of `np.sum(labels == i)`: the pixel count of label class `i`. -/
def labelSize {h w : Nat} (labels : Fin h × Fin w → Nat) (i : Nat) : Nat :=
  (Finset.univ.filter fun p => labels p = i).card

/-- The list `[(size_1, 1), ..., (size_(num-1), num-1)]` built by the
component-size loops `for i in range(1, num_labels)`. -/
def componentSizes {h w : Nat} (labels : Fin h × Fin w → Nat) (num : Nat) :
    List (Nat × Nat) :=
  ((List.range num).drop 1).map fun i => (labelSize labels i, i)

/-- Descending lexicographic order on `(size, label)` pairs: the order
produced by `component_sizes.sort(reverse=True)` on Python tuples. -/
def pairGe (x y : Nat × Nat) : Prop :=
  y.1 < x.1 ∨ (x.1 = y.1 ∧ y.2 ≤ x.2)

instance : DecidableRel pairGe := fun x y => by unfold pairGe; infer_instance

instance : IsTotal (Nat × Nat) pairGe :=
  ⟨fun x y => by unfold pairGe; omega⟩

instance : IsTrans (Nat × Nat) pairGe :=
  ⟨fun x y z hxy hyz => by unfold pairGe at hxy hyz ⊢; omega⟩

/-- Embedding of `component_sizes.sort(reverse=True)`: a stable sort into descending
`(size, label)` order. -/
def sortDesc (l : List (Nat × Nat)) : List (Nat × Nat) :=
  List.insertionSort pairGe l

/-- The percentage test `(size / total_pixels) * 100 >= 1.0` of the keep
loop, in exact rationals. -/
def pctGe1 (total size : Nat) : Prop :=
  (1 : ℚ) ≤ (size : ℚ) / (total : ℚ) * 100

instance (total size : Nat) : Decidable (pctGe1 total size) := by
  unfold pctGe1; infer_instance

/-- The keep loop of `connect_main_components` (`bg_remover_clean.py`
lines 190-199): walk the sorted component list, keep every component at
or above 1% of the total pixel count, and otherwise keep a component
only when nothing has been kept yet (which, on the descending list,
keeps exactly the first component). -/
def keepLoop (total : Nat) : List (Nat × Nat) → List Nat → List Nat
  | [], acc => acc
  | (size, lab) :: rest, acc =>
    if pctGe1 total size then keepLoop total rest (acc ++ [lab])
    else if acc = [] then keepLoop total rest (acc ++ [lab])
    else keepLoop total rest acc

namespace Clean

/-- Embedding of `connect_main_components` (`bg_remover_clean.py` lines 162-216), with
the result of the external `cv2.connectedComponents` call passed in as
`(num, labels)`: with more than one component, the alpha channel is
multiplied by the 0/1 mask of the labels kept by the keep loop. -/
def connect_main_components {h w : Nat} (num : Nat)
    (labels : Fin h × Fin w → Nat) (img : Img h w) : Img h w :=
  if num ≤ 2 then img else
  fun i j =>
    { img i j with a := (img i j).a *
        (if labels (i, j) ∈ keepLoop (h * w) (sortDesc (componentSizes labels num)) []
         then 1 else 0) }

end Clean

/-- Embedding of `cv2.getStructuringElement(cv2.MORPH_ELLIPSE, (3, 3))`: the 3×3
cross, as offsets. -/
def crossKernel : List (Int × Int) := [(-1, 0), (0, -1), (0, 0), (0, 1), (1, 0)]

/-- Embedding of `cv2.getStructuringElement(cv2.MORPH_ELLIPSE, (5, 5))`: full rows
-1..1 and the single central column in rows ±2, as offsets. -/
def ellipse5Kernel : List (Int × Int) :=
  [(-2, 0),
   (-1, -2), (-1, -1), (-1, 0), (-1, 1), (-1, 2),
   (0, -2), (0, -1), (0, 0), (0, 1), (0, 2),
   (1, -2), (1, -1), (1, 0), (1, 1), (1, 2),
   (2, 0)]

/-- Embedding of `np.ones((3, 3))` as a structuring element, as offsets. -/
def ones3Kernel : List (Int × Int) :=
  [(-1, -1), (-1, 0), (-1, 1), (0, -1), (0, 0), (0, 1), (1, -1), (1, 0), (1, 1)]

/-- Shift a grid index by an integer offset when the result stays in
bounds. -/
def shiftIdx (n : Nat) (i : Fin n) (d : Int) : Option (Fin n) :=
  if hd : 0 ≤ (i : Int) + d ∧ (i : Int) + d < (n : Int) then
    some ⟨((i : Int) + d).toNat, by omega⟩
  else none

/-- Binary dilation by a structuring element; positions outside the frame
do not contribute (the `cv2.dilate` default border). -/
def dilateB {h w : Nat} (ker : List (Int × Int)) (m : Fin h × Fin w → Bool)
    (p : Fin h × Fin w) : Bool :=
  ker.any fun d =>
    match shiftIdx h p.1 d.1, shiftIdx w p.2 d.2 with
    | some i2, some j2 => m (i2, j2)
    | _, _ => false

/-- Binary erosion by a structuring element; positions outside the frame
count as foreground (the `cv2.erode` default border). -/
def erodeB {h w : Nat} (ker : List (Int × Int)) (m : Fin h × Fin w → Bool)
    (p : Fin h × Fin w) : Bool :=
  ker.all fun d =>
    match shiftIdx h p.1 d.1, shiftIdx w p.2 d.2 with
    | some i2, some j2 => m (i2, j2)
    | _, _ => true

namespace Isnet

/-- The label ranked first by `component_sizes.sort(reverse=True)` in
`connect_components`: the main (largest) component. -/
def mainLabel {h w : Nat} (labels : Fin h × Fin w → Nat) (num : Nat) : Nat :=
  ((sortDesc (componentSizes labels num)).headD (0, 0)).2

/-- The main-component mask of `connect_components`. -/
def mainMask {h w : Nat} (labels : Fin h × Fin w → Nat) (num : Nat)
    (p : Fin h × Fin w) : Bool :=
  labels p == mainLabel labels num

/-- Embedding of `cv2.dilate(main_mask, kernel, iterations=2)` with the 3×3 elliptical
(cross) kernel: the expanded main component used by the proximity test. -/
def expandedMain {h w : Nat} (labels : Fin h × Fin w → Nat) (num : Nat) :
    Fin h × Fin w → Bool :=
  dilateB crossKernel (dilateB crossKernel (mainMask labels num))

/-- The merge loop of `connect_components` (`bg_remover.py` lines
142-147): a non-main component is unioned into the mask exactly when its
size is below 1000 and it meets the expanded main component. -/
def mergeLoop {h w : Nat} (labels : Fin h × Fin w → Nat)
    (expanded : Fin h × Fin w → Bool) (l : List (Nat × Nat))
    (m : Fin h × Fin w → Bool) : Fin h × Fin w → Bool :=
  l.foldl
    (fun acc sl =>
      if sl.1 < 1000 ∧ ∃ p, expanded p = true ∧ labels p = sl.2 then
        fun p => acc p || (labels p == sl.2)
      else acc)
    m

/-- Embedding of `connect_components` (`bg_remover.py` lines 113-154), with the result
of the external `cv2.connectedComponents` call passed in: with more than
one component, keep the largest component together with the small
(< 1000 px) components meeting its twice-dilated mask, and multiply the
alpha channel by the resulting 0/1 mask. -/
def connect_components {h w : Nat} (num : Nat)
    (labels : Fin h × Fin w → Nat) (img : Img h w) : Img h w :=
  if num ≤ 2 then img else
  fun i j =>
    { img i j with a := (img i j).a *
        (if mergeLoop labels (expandedMain labels num)
            (sortDesc (componentSizes labels num)).tail
            (mainMask labels num) (i, j) = true
         then 1 else 0) }

end Isnet

namespace BGRemover

/-- Embedding of `connect_character_elements` (`bgremover.py` lines 205-253), with the
component count of the external `cv2.connectedComponents` call passed
in: with more than one component, dilate the binary mask `alpha > 0`
with the 3×3 cross and then the 5×5 ellipse, and multiply the alpha
channel by the dilated 0/1 mask (the per-component sizes computed by the
source feed only its verbose reporting). -/
def connect_character_elements {h w : Nat} (num : Nat) (img : Img h w) :
    Img h w :=
  if num ≤ 2 then img else
  fun i j =>
    { img i j with a := (img i j).a *
        (if dilateB ellipse5Kernel
            (dilateB crossKernel (fun p => decide (0 < (img p.1 p.2).a))) (i, j) = true
         then 1 else 0) }

end BGRemover

/-- The in-bounds values of a grayscale image over a kernel
neighbourhood. -/
def kernelVals {h w : Nat} (ker : List (Int × Int)) (f : Fin h × Fin w → Nat)
    (p : Fin h × Fin w) : List Nat :=
  ker.filterMap fun d =>
    match shiftIdx h p.1 d.1, shiftIdx w p.2 d.2 with
    | some i2, some j2 => some (f (i2, j2))
    | _, _ => none

/-- Grayscale dilation: the maximum over the in-bounds kernel
neighbourhood (the border does not contribute). -/
def dilateG {h w : Nat} (ker : List (Int × Int)) (f : Fin h × Fin w → Nat)
    (p : Fin h × Fin w) : Nat :=
  (kernelVals ker f p).foldl max 0

/-- Grayscale erosion: the minimum over the in-bounds kernel
neighbourhood (the border does not contribute; the centre value is the
fold seed and belongs to the neighbourhood for the kernels used here). -/
def erodeG {h w : Nat} (ker : List (Int × Int)) (f : Fin h × Fin w → Nat)
    (p : Fin h × Fin w) : Nat :=
  (kernelVals ker f p).foldl min (f p)

namespace Core

/-- Embedding of `_connect_character_elements` (`core.py` lines 206-219): grayscale
morphological closing (dilate then erode with the 3×3 cross) of the
alpha channel, written back on the originally visible pixels only. -/
def connect_character_elements {h w : Nat} (img : Img h w) : Img h w :=
  fun i j =>
    if 0 < (img i j).a then
      { img i j with
        a := erodeG crossKernel (dilateG crossKernel (fun p => (img p.1 p.2).a)) (i, j) }
    else img i j

end Core

/-- Example image for witnesses: a 1×4 row holding opacities 0, 30, 120
and 255. -/
def exRow : Img 1 4 := fun _ j =>
  if (j : Nat) = 0 then ⟨10, 20, 30, 0⟩
  else if (j : Nat) = 1 then ⟨50, 60, 70, 30⟩
  else if (j : Nat) = 2 then ⟨80, 90, 100, 120⟩
  else ⟨110, 120, 130, 255⟩

/-- Counterexample image for C4: a 3×7 fully-visible image with twenty
black pixels and one bright saturated pixel (255, 255, 200) at (2,6). -/
def exC4 : Img 3 7 := fun i j =>
  if (i : Nat) = 2 ∧ (j : Nat) = 6 then ⟨255, 255, 200, 255⟩ else ⟨0, 0, 0, 255⟩

/-- Embedding of the `BORDER_REFLECT_101` index reflection for a 3×3 kernel: index -1 maps
to 1 and index n to n-2, and a single-pixel axis maps everything to 0
(OpenCV `borderInterpolate`). -/
def reflIdx (n : Nat) (x : Int) : Nat :=
  if n = 1 then 0
  else if x < 0 then (-x).toNat
  else if (n : Int) ≤ x then (2 * (n : Int) - 2 - x).toNat
  else x.toNat

/-- Reflect the shifted index `i + d` back into range; exact for the
offsets `|d| ≤ 1` of a 3×3 kernel (the final clamp is never reached for
those offsets). -/
def reflFin {n : Nat} (i : Fin n) (d : Int) : Fin n :=
  ⟨min (reflIdx n ((i : Int) + d)) (n - 1), by have := i.isLt; omega⟩

/-- The normalised 1-D kernel of `cv2.getGaussianKernel(3, σ)`: centre
weight `1/(1+2c)` and outer weights `c/(1+2c)`, where the parameter `c`
stands for the transcendental `exp(-1/(2σ²))`. -/
def gk (c : ℚ) (d : Int) : ℚ :=
  if d = 0 then 1 / (1 + 2 * c) else c / (1 + 2 * c)

/-- Embedding of `cv2.GaussianBlur` with a 3×3 kernel: the separable convolution with
the 1-D kernel `gk c` under `BORDER_REFLECT_101`. -/
def blur3 {h w : Nat} (c : ℚ) (f : Fin h → Fin w → ℚ) (i : Fin h) (j : Fin w) : ℚ :=
  gk c (-1) * gk c (-1) * f (reflFin i (-1)) (reflFin j (-1)) +
  gk c (-1) * gk c 0 * f (reflFin i (-1)) (reflFin j 0) +
  gk c (-1) * gk c 1 * f (reflFin i (-1)) (reflFin j 1) +
  gk c 0 * gk c (-1) * f (reflFin i 0) (reflFin j (-1)) +
  gk c 0 * gk c 0 * f (reflFin i 0) (reflFin j 0) +
  gk c 0 * gk c 1 * f (reflFin i 0) (reflFin j 1) +
  gk c 1 * gk c (-1) * f (reflFin i 1) (reflFin j (-1)) +
  gk c 1 * gk c 0 * f (reflFin i 1) (reflFin j 0) +
  gk c 1 * gk c 1 * f (reflFin i 1) (reflFin j 1)

/-- Embedding of `.astype(np.uint8)` on a float value already in `[0, 255]`:
truncation towards zero (equal to the floor on the reachable values,
which are nonnegative). -/
def toByte (q : ℚ) : Nat := (Int.floor q).toNat

/-- Embedding of `np.clip(·, 0, 255).astype(np.uint8)`. -/
def clipToByte (q : ℚ) : Nat := (Int.floor (max 0 (min q 255))).toNat

/-- The float alpha channel, as read by the edge smoothers. -/
def alphaQ {h w : Nat} (img : Img h w) : Fin h → Fin w → ℚ :=
  fun i j => ((img i j).a : ℚ)

namespace BGRemover

/-- Embedding of `smooth_edges_preserve` (`bgremover.py` lines 314-335): blur the float
alpha with a 3×3 Gaussian (σ = 0.2; kernel parameter `c`), force the
blurred value back to 255 on fully opaque pixels, blend 15% of the
blurred value into pixels with `0 < alpha < 255` only, and cast back to
uint8. -/
def smooth_edges_preserve {h w : Nat} (c : ℚ) (img : Img h w) : Img h w :=
  fun i j =>
    { img i j with
      a := toByte (if 0 < alphaQ img i j ∧ alphaQ img i j < 255 then
          (1 - 15/100) * alphaQ img i j +
            15/100 * (if alphaQ img i j = 255 then 255 else blur3 c (alphaQ img) i j)
        else alphaQ img i j) }

end BGRemover

namespace Clean

/-- Embedding of `smooth_edges_conservative` (`bg_remover_clean.py` lines 258-278):
the same shape as `smooth_edges_preserve` with σ = 0.3 and a 30% blend. -/
def smooth_edges_conservative {h w : Nat} (c : ℚ) (img : Img h w) : Img h w :=
  fun i j =>
    { img i j with
      a := toByte (if 0 < alphaQ img i j ∧ alphaQ img i j < 255 then
          (1 - 3/10) * alphaQ img i j +
            3/10 * (if alphaQ img i j = 255 then 255 else blur3 c (alphaQ img) i j)
        else alphaQ img i j) }

end Clean

namespace Isnet

/-- Embedding of `smooth_edges` (`bg_remover.py` lines 185-198): blur the float alpha
(σ = 0.5), force fully opaque pixels back to 255, and cast the blurred
array itself back to uint8. -/
def smooth_edges {h w : Nat} (c : ℚ) (img : Img h w) : Img h w :=
  fun i j =>
    { img i j with
      a := toByte (if alphaQ img i j = 255 then 255 else blur3 c (alphaQ img) i j) }

end Isnet

namespace Core

/-- The morphological gradient `cv2.morphologyEx(alpha > 0,
MORPH_GRADIENT, np.ones((3,3)))` of `_smooth_edges_conservative`:
dilation minus erosion of the visibility mask, nonzero exactly on the
foreground/background boundary. -/
def gradMask {h w : Nat} (img : Img h w) (p : Fin h × Fin w) : Bool :=
  dilateB ones3Kernel (fun q => decide (0 < (img q.1 q.2).a)) p &&
  ! erodeB ones3Kernel (fun q => decide (0 < (img q.1 q.2).a)) p

/-- Embedding of `_smooth_edges_conservative` (`core.py` lines 235-250): blur the
float alpha (σ = 0.5; kernel parameter `c`), overwrite the pixels on the
morphological-gradient edge with the blurred value, clip to `[0, 255]`
and cast back to uint8. -/
def smooth_edges_conservative {h w : Nat} (c : ℚ) (img : Img h w) : Img h w :=
  fun i j =>
    { img i j with
      a := clipToByte (if gradMask img (i, j) = true then blur3 c (alphaQ img) i j
        else alphaQ img i j) }

end Core

namespace BGRemover

/-- Steps 1-5 of `remove_background_preserve_elements` (`bgremover.py`
lines 88-111): analyse (a no-op), fix partial transparencies, connect
character elements, remove background whites, smooth edges. -/
def preservePipeline {h w : Nat} (c : ℚ) (num t : Nat) (img : Img h w) : Img h w :=
  smooth_edges_preserve c
    (remove_background_whites_only
      (connect_character_elements num
        (fix_partial_transparencies t img)))

end BGRemover

namespace Core

/-- Embedding of `_preserve_elements_pipeline` (`core.py` lines 130-155): analyse (a
no-op), then `_fix_partial_transparencies` (identical to the
`bgremover.py` stage), `_connect_character_elements`, and
`_remove_background_whites_only`. -/
def preserve_elements_pipeline {h w : Nat} (t : Nat) (img : Img h w) : Img h w :=
  remove_background_whites_only
    (connect_character_elements
      (BGRemover.fix_partial_transparencies t img))

end Core

/-- The transform writes only the alpha channel: the colour channels of
every pixel of its output equal those of its input. -/
def preservesRGB {h w : Nat} (f : Img h w → Img h w) : Prop :=
  ∀ img i j, ((f img) i j).r = (img i j).r ∧ ((f img) i j).g = (img i j).g ∧
    ((f img) i j).b = (img i j).b

/-- Counterexample image for C3: a 2×2 image whose single visible pixel
(0,0) is fully opaque and lies on the foreground/background boundary. -/
def exC3 : Img 2 2 := fun i j =>
  if (i : Nat) = 0 ∧ (j : Nat) = 0 then ⟨10, 20, 30, 255⟩ else ⟨0, 0, 0, 0⟩

/-- Witness image for C3: a fully opaque 2×2 image (no gradient edge). -/
def exC3w : Img 2 2 := fun _ _ => ⟨10, 20, 30, 255⟩

/-- Witness image for the component reconcilers: a 1×4 row with a
two-pixel component on the left and a one-pixel component on the right,
separated by one background pixel. -/
def exCompImg : Img 1 4 := fun _ j =>
  if (j : Nat) ≤ 1 then ⟨100, 100, 100, 255⟩
  else if (j : Nat) = 2 then ⟨0, 0, 0, 0⟩
  else ⟨200, 50, 50, 255⟩

/-- A labelling of `exCompImg` satisfying the connected-components
contract with `num = 3`. -/
def exCompLabels : Fin 1 × Fin 4 → Nat := fun p =>
  if (p.2 : Nat) ≤ 1 then 1 else if (p.2 : Nat) = 3 then 2 else 0

/-- Counterexample image for C2: a 4×4 image with a two-pixel component
in the top-left corner and a one-pixel component at (3,3), more than two
steps away. -/
def exCC : Img 4 4 := fun i j =>
  if (i : Nat) = 0 ∧ (j : Nat) ≤ 1 then ⟨80, 80, 80, 255⟩
  else if (i : Nat) = 3 ∧ (j : Nat) = 3 then ⟨90, 90, 90, 255⟩
  else ⟨0, 0, 0, 0⟩

/-- A labelling of `exCC` satisfying the connected-components contract
with `num = 3`. -/
def exCCLabels : Fin 4 × Fin 4 → Nat := fun p =>
  if (p.1 : Nat) = 0 ∧ (p.2 : Nat) ≤ 1 then 1
  else if (p.1 : Nat) = 3 ∧ (p.2 : Nat) = 3 then 2 else 0

/-- Counterexample image for C5: a 4×4 image with a three-pixel component
in the top-left corner and a one-pixel component at (3,3), more than two
steps away. -/
def exCC5 : Img 4 4 := fun i j =>
  if (i : Nat) = 0 ∧ (j : Nat) ≤ 1 then ⟨80, 80, 80, 255⟩
  else if (i : Nat) = 1 ∧ (j : Nat) = 0 then ⟨80, 80, 80, 255⟩
  else if (i : Nat) = 3 ∧ (j : Nat) = 3 then ⟨90, 90, 90, 255⟩
  else ⟨0, 0, 0, 0⟩

/-- A labelling of `exCC5` satisfying the connected-components contract
with `num = 3`. -/
def exCC5Labels : Fin 4 × Fin 4 → Nat := fun p =>
  if ((p.1 : Nat) = 0 ∧ (p.2 : Nat) ≤ 1) ∨ ((p.1 : Nat) = 1 ∧ (p.2 : Nat) = 0) then 1
  else if (p.1 : Nat) = 3 ∧ (p.2 : Nat) = 3 then 2 else 0

theorem fixAlpha_binary (t a : Nat) (ha : a ≤ 255) :
    BGRemover.fixAlpha t a = 0 ∨ BGRemover.fixAlpha t a = 255 := by
  unfold BGRemover.fixAlpha noiseStep
  split_ifs <;> omega

theorem cleanAlpha_binary (t a : Nat) (ha : a ≤ 255) :
    Clean.cleanAlpha t a = 0 ∨ Clean.cleanAlpha t a = 255 := by
  unfold Clean.cleanAlpha noiseStep
  split_ifs <;> omega

theorem fixAlpha_idem (t a : Nat) (ht : t ≤ 255) :
    BGRemover.fixAlpha t (BGRemover.fixAlpha t a) = BGRemover.fixAlpha t a := by
  unfold BGRemover.fixAlpha noiseStep
  split_ifs <;> omega

theorem cleanAlpha_idem (t a : Nat) (ht : t ≤ 255) :
    Clean.cleanAlpha t (Clean.cleanAlpha t a) = Clean.cleanAlpha t a := by
  unfold Clean.cleanAlpha noiseStep
  split_ifs <;> omega

/-- Exactly one of the three transparency classes holds for a given
opacity and threshold. -/
theorem classes_exactly_one (t a : Nat) :
    (isBackground a ∧ ¬ isAmbiguous t a ∧ ¬ isForeground t a) ∨
    (¬ isBackground a ∧ isAmbiguous t a ∧ ¬ isForeground t a) ∨
    (¬ isBackground a ∧ ¬ isAmbiguous t a ∧ isForeground t a) := by
  unfold isBackground isAmbiguous isForeground
  omega

/-- C1. After the Ambiguous-Region Resolver, every opacity is exactly 0 or
255; under the preserve policy (`fix_partial_transparencies`) opacities
strictly between 0 and the threshold become 0 and opacities from the
threshold up to 254 become 255; under the eliminate policy
(`clean_partial_transparencies`) opacities strictly between 0 and the
threshold become 0 and opacities at or above the threshold become 255. -/
theorem claim_C1_resolver_binarizes {h w : Nat} (img : Img h w) (t : Nat)
    (i : Fin h) (j : Fin w) (hv : (img i j).a ≤ 255) :
    (((BGRemover.fix_partial_transparencies t img) i j).a = 0 ∨
      ((BGRemover.fix_partial_transparencies t img) i j).a = 255) ∧
    (((Clean.clean_partial_transparencies t img) i j).a = 0 ∨
      ((Clean.clean_partial_transparencies t img) i j).a = 255) ∧
    (0 < (img i j).a → (img i j).a < t →
      ((BGRemover.fix_partial_transparencies t img) i j).a = 0) ∧
    (t ≤ (img i j).a → (img i j).a ≤ 254 →
      ((BGRemover.fix_partial_transparencies t img) i j).a = 255) ∧
    (0 < (img i j).a → (img i j).a < t →
      ((Clean.clean_partial_transparencies t img) i j).a = 0) ∧
    (t ≤ (img i j).a →
      ((Clean.clean_partial_transparencies t img) i j).a = 255) := by
  refine ⟨fixAlpha_binary t _ hv, cleanAlpha_binary t _ hv, ?_, ?_, ?_, ?_⟩ <;>
    · intros
      simp only [BGRemover.fix_partial_transparencies, BGRemover.fixAlpha,
        Clean.clean_partial_transparencies, Clean.cleanAlpha, noiseStep]
      split_ifs <;> omega

/-- Witness for C1 at the concrete image `exRow`, threshold 50, pixel
(0,2) whose opacity 120 lies in [50, 254]. -/
theorem claim_C1_witness :
    (exRow 0 2).a ≤ 255 ∧
    ((((BGRemover.fix_partial_transparencies 50 exRow) 0 2).a = 0 ∨
       ((BGRemover.fix_partial_transparencies 50 exRow) 0 2).a = 255) ∧
     (((Clean.clean_partial_transparencies 50 exRow) 0 2).a = 0 ∨
       ((Clean.clean_partial_transparencies 50 exRow) 0 2).a = 255) ∧
     (0 < (exRow 0 2).a → (exRow 0 2).a < 50 →
       ((BGRemover.fix_partial_transparencies 50 exRow) 0 2).a = 0) ∧
     (50 ≤ (exRow 0 2).a → (exRow 0 2).a ≤ 254 →
       ((BGRemover.fix_partial_transparencies 50 exRow) 0 2).a = 255) ∧
     (0 < (exRow 0 2).a → (exRow 0 2).a < 50 →
       ((Clean.clean_partial_transparencies 50 exRow) 0 2).a = 0) ∧
     (50 ≤ (exRow 0 2).a →
       ((Clean.clean_partial_transparencies 50 exRow) 0 2).a = 255)) :=
  ⟨by decide, claim_C1_resolver_binarizes exRow 50 0 2 (by decide)⟩

/-- C7. With a fixed threshold at most 255, each Ambiguous-Region Resolver
is idempotent as a map on images, and after one application every pixel
falls in exactly one of the classes background, ambiguous, foreground. -/
theorem claim_C7_resolver_idempotent {h w : Nat} (img : Img h w) (t : Nat)
    (ht : t ≤ 255) :
    BGRemover.fix_partial_transparencies t
        (BGRemover.fix_partial_transparencies t img) =
      BGRemover.fix_partial_transparencies t img ∧
    Clean.clean_partial_transparencies t
        (Clean.clean_partial_transparencies t img) =
      Clean.clean_partial_transparencies t img ∧
    (∀ i j,
      let x := ((BGRemover.fix_partial_transparencies t img) i j).a
      (isBackground x ∧ ¬ isAmbiguous t x ∧ ¬ isForeground t x) ∨
      (¬ isBackground x ∧ isAmbiguous t x ∧ ¬ isForeground t x) ∨
      (¬ isBackground x ∧ ¬ isAmbiguous t x ∧ isForeground t x)) ∧
    (∀ i j,
      let x := ((Clean.clean_partial_transparencies t img) i j).a
      (isBackground x ∧ ¬ isAmbiguous t x ∧ ¬ isForeground t x) ∨
      (¬ isBackground x ∧ isAmbiguous t x ∧ ¬ isForeground t x) ∨
      (¬ isBackground x ∧ ¬ isAmbiguous t x ∧ isForeground t x)) := by
  refine ⟨?_, ?_, fun i j => classes_exactly_one t _, fun i j => classes_exactly_one t _⟩
  · funext i j
    simp only [BGRemover.fix_partial_transparencies]
    exact Pix.ext rfl rfl rfl (fixAlpha_idem t _ ht)
  · funext i j
    simp only [Clean.clean_partial_transparencies]
    exact Pix.ext rfl rfl rfl (cleanAlpha_idem t _ ht)

/-- Witness for C7: the idempotence theorem applied to `exRow` with the
concrete threshold 150. -/
theorem claim_C7_witness :
    150 ≤ 255 ∧
    (BGRemover.fix_partial_transparencies 150
        (BGRemover.fix_partial_transparencies 150 exRow) =
      BGRemover.fix_partial_transparencies 150 exRow ∧
    Clean.clean_partial_transparencies 150
        (Clean.clean_partial_transparencies 150 exRow) =
      Clean.clean_partial_transparencies 150 exRow ∧
    (∀ i j,
      let x := ((BGRemover.fix_partial_transparencies 150 exRow) i j).a
      (isBackground x ∧ ¬ isAmbiguous 150 x ∧ ¬ isForeground 150 x) ∨
      (¬ isBackground x ∧ isAmbiguous 150 x ∧ ¬ isForeground 150 x) ∨
      (¬ isBackground x ∧ ¬ isAmbiguous 150 x ∧ isForeground 150 x)) ∧
    (∀ i j,
      let x := ((Clean.clean_partial_transparencies 150 exRow) i j).a
      (isBackground x ∧ ¬ isAmbiguous 150 x ∧ ¬ isForeground 150 x) ∨
      (¬ isBackground x ∧ isAmbiguous 150 x ∧ ¬ isForeground 150 x) ∨
      (¬ isBackground x ∧ ¬ isAmbiguous 150 x ∧ isForeground 150 x))) :=
  ⟨by decide, claim_C7_resolver_idempotent exRow 150 (by decide)⟩

theorem lumQ_mem_visibleLums {h w : Nat} (img : Img h w) (i : Fin h) (j : Fin w)
    (hvis : 0 < (img i j).a) : lumQ (img i j) ∈ visibleLums img := by
  unfold visibleLums
  rw [List.mem_flatMap]
  refine ⟨i, List.mem_finRange i, ?_⟩
  rw [List.mem_filterMap]
  exact ⟨j, List.mem_finRange j, by rw [if_pos hvis]⟩

/-- C8. The Residual-Color Filter leaves a pixel whose opacity is already
0 completely unchanged — opacity and colour channels — in both the
`bgremover.py` variant (whose removal mask requires visibility) and the
`core.py` variant (which writes 0 over an opacity that is already 0). -/
theorem claim_C8_filter_noop_on_transparent {h w : Nat} (img : Img h w)
    (i : Fin h) (j : Fin w) (ha : (img i j).a = 0) :
    (BGRemover.remove_background_whites_only img) i j = img i j ∧
    (Core.remove_background_whites_only img) i j = img i j := by
  constructor
  · unfold BGRemover.remove_background_whites_only
    by_cases hex : ∃ i j, 0 < (img i j).a
    · rw [if_pos hex]
      have hmask : ¬ (245 < lumArr img i j ∧ satArr img i j < 1/20 ∧
          0 < (img i j).a ∧ borderMask h w i j) := by
        rintro ⟨-, -, hv, -⟩; omega
      exact if_neg hmask
    · rw [if_neg hex]
  · unfold Core.remove_background_whites_only
    split_ifs with hc
    · exact Pix.ext rfl rfl rfl ha.symm
    · rfl

/-- Witness for C8 at pixel (0,0) of `exRow`, whose opacity is 0. -/
theorem claim_C8_witness :
    (exRow 0 0).a = 0 ∧
    ((BGRemover.remove_background_whites_only exRow) 0 0 = exRow 0 0 ∧
     (Core.remove_background_whites_only exRow) 0 0 = exRow 0 0) :=
  ⟨by decide, claim_C8_filter_noop_on_transparent exRow 0 0 (by decide)⟩

/-- C4 (amended). Characterisation of the three Residual-Color Filter
variants on a visible pixel: `remove_background_whites_only` removes it
iff luminance exceeds 245 and saturation is below 0.05 and the pixel is
in the border band; `remove_white_pixels_advanced` removes it iff
luminance exceeds 235 and saturation is below 0.15; but
`remove_white_pixels` of `bg_remover.py` removes it iff its luminance
exceeds `max(95th percentile of visible luminances, 240)`, with no
saturation condition at all. -/
theorem claim_C4_amended {h w : Nat} (img : Img h w) (i : Fin h) (j : Fin w)
    (hvis : 0 < (img i j).a) :
    (((BGRemover.remove_background_whites_only img) i j).a = 0 ↔
      (245 < lumQ (img i j) ∧ satQ (img i j) < 1/20 ∧ borderMask h w i j)) ∧
    (((Clean.remove_white_pixels_advanced img) i j).a = 0 ↔
      (235 < lumQ (img i j) ∧ satQ (img i j) < 3/20)) ∧
    (((Isnet.remove_white_pixels img) i j).a = 0 ↔
      max (percentile95 (visibleLums img)) 240 < lumQ (img i j)) := by
  have hex : ∃ i j, 0 < (img i j).a := ⟨i, j, hvis⟩
  have hlum : lumArr img i j = lumQ (img i j) := if_pos hvis
  have hsat : satArr img i j = satQ (img i j) := if_pos hvis
  have hne : ¬ ((img i j).a = 0) := by omega
  refine ⟨?_, ?_, ?_⟩
  · have hcond : (245 < lumArr img i j ∧ satArr img i j < 1/20 ∧
        0 < (img i j).a ∧ borderMask h w i j) ↔
        (245 < lumQ (img i j) ∧ satQ (img i j) < 1/20 ∧ borderMask h w i j) := by
      rw [hlum, hsat]
      exact ⟨fun hc => ⟨hc.1, hc.2.1, hc.2.2.2⟩, fun hc => ⟨hc.1, hc.2.1, hvis, hc.2.2⟩⟩
    unfold BGRemover.remove_background_whites_only
    rw [if_pos hex]
    split_ifs with hc
    · simpa using hcond.mp hc
    · exact ⟨fun h0 => absurd h0 hne, fun hr => absurd (hcond.mpr hr) hc⟩
  · have hcond : (235 < lumArr img i j ∧ satArr img i j < 3/20 ∧
        0 < (img i j).a) ↔
        (235 < lumQ (img i j) ∧ satQ (img i j) < 3/20) := by
      rw [hlum, hsat]
      exact ⟨fun hc => ⟨hc.1, hc.2.1⟩, fun hc => ⟨hc.1, hc.2, hvis⟩⟩
    unfold Clean.remove_white_pixels_advanced
    rw [if_pos hex]
    split_ifs with hc
    · simpa using hcond.mp hc
    · exact ⟨fun h0 => absurd h0 hne, fun hr => absurd (hcond.mpr hr) hc⟩
  · have hlen : 0 < (visibleLums img).length :=
      List.length_pos_of_mem (lumQ_mem_visibleLums img i j hvis)
    have hcond : (max (percentile95 (visibleLums img)) 240 < lumArr img i j ∧
        0 < (img i j).a) ↔
        max (percentile95 (visibleLums img)) 240 < lumQ (img i j) := by
      rw [hlum]
      exact ⟨fun hc => hc.1, fun hc => ⟨hc, hvis⟩⟩
    unfold Isnet.remove_white_pixels
    rw [if_pos hex, if_pos hlen]
    split_ifs with hc
    · simpa using hcond.mp hc
    · exact ⟨fun h0 => absurd h0 hne, fun hr => absurd (hcond.mpr hr) hc⟩

/-- Witness for C4 (amended) at the visible pixel (0,3) of `exRow`. -/
theorem claim_C4_amended_witness :
    0 < (exRow 0 3).a ∧
    ((((BGRemover.remove_background_whites_only exRow) 0 3).a = 0 ↔
      (245 < lumQ (exRow 0 3) ∧ satQ (exRow 0 3) < 1/20 ∧ borderMask 1 4 0 3)) ∧
    (((Clean.remove_white_pixels_advanced exRow) 0 3).a = 0 ↔
      (235 < lumQ (exRow 0 3) ∧ satQ (exRow 0 3) < 3/20)) ∧
    (((Isnet.remove_white_pixels exRow) 0 3).a = 0 ↔
      max (percentile95 (visibleLums exRow)) 240 < lumQ (exRow 0 3))) :=
  ⟨by decide, claim_C4_amended exRow 0 3 (by decide)⟩

/-- Counterexample for C4: `remove_white_pixels` (a cited Residual-Color
Filter variant) removes the visible pixel (2,6) of `exC4` even though
its saturation proxy 55/255 is not below the low cutoff (not below 0.05,
0.15, nor even 0.2) — a pixel satisfying only the luminance condition is
removed, refuting the claimed conjunction. -/
theorem claim_C4_counterexample :
    0 < (exC4 2 6).a ∧
    ((Isnet.remove_white_pixels exC4) 2 6).a = 0 ∧
    ¬ (satQ (exC4 2 6) < 1/20) ∧ ¬ (satQ (exC4 2 6) < 3/20) ∧
    ¬ (satQ (exC4 2 6) < 1/5) := by
  with_unfolding_all decide
/-- C6. Both pipeline entry points return a boolean success signal equal
to the conjunction of the external-call outcomes; whenever the returned
signal is False no output file has been written, and a missing input
path in particular yields False with no file created. -/
theorem claim_C6_failure_signal (e : RunEnv) :
    Isnet.remove_background_isnet e = (e.allOk, e.allOk) ∧
    Core.remove_background e = (e.allOk, e.allOk) ∧
    ((Isnet.remove_background_isnet e).1 = false →
      (Isnet.remove_background_isnet e).2 = false) ∧
    ((Core.remove_background e).1 = false →
      (Core.remove_background e).2 = false) ∧
    (e.inputExists = false →
      Isnet.remove_background_isnet e = (false, false) ∧
      Core.remove_background e = (false, false)) := by
  obtain ⟨i, r, s, d, v⟩ := e
  cases i <;> cases r <;> cases s <;> cases d <;> cases v <;> decide

/-- Witness for C6 at the concrete environment where the input file is
missing and every other call would succeed. -/
theorem claim_C6_witness :
    Isnet.remove_background_isnet ⟨false, true, true, true, true⟩ =
      (RunEnv.allOk ⟨false, true, true, true, true⟩,
       RunEnv.allOk ⟨false, true, true, true, true⟩) ∧
    Core.remove_background ⟨false, true, true, true, true⟩ =
      (RunEnv.allOk ⟨false, true, true, true, true⟩,
       RunEnv.allOk ⟨false, true, true, true, true⟩) ∧
    ((Isnet.remove_background_isnet ⟨false, true, true, true, true⟩).1 = false →
      (Isnet.remove_background_isnet ⟨false, true, true, true, true⟩).2 = false) ∧
    ((Core.remove_background ⟨false, true, true, true, true⟩).1 = false →
      (Core.remove_background ⟨false, true, true, true, true⟩).2 = false) ∧
    ((⟨false, true, true, true, true⟩ : RunEnv).inputExists = false →
      Isnet.remove_background_isnet ⟨false, true, true, true, true⟩ = (false, false) ∧
      Core.remove_background ⟨false, true, true, true, true⟩ = (false, false)) :=
  claim_C6_failure_signal ⟨false, true, true, true, true⟩

theorem shiftIdx_zero (n : Nat) (i : Fin n) : shiftIdx n i 0 = some i := by
  have hi := i.isLt
  unfold shiftIdx
  rw [dif_pos (by omega)]
  congr 1

theorem dilateB_self {h w : Nat} {ker : List (Int × Int)}
    (hker : ((0 : Int), (0 : Int)) ∈ ker) (m : Fin h × Fin w → Bool)
    (p : Fin h × Fin w) (hm : m p = true) : dilateB ker m p = true := by
  unfold dilateB
  rw [List.any_eq_true]
  refine ⟨(0, 0), hker, ?_⟩
  rw [shiftIdx_zero, shiftIdx_zero]
  simpa using hm

theorem growStep_subset {h w : Nat} (img : Img h w) {s : Finset (Fin h × Fin w)}
    (hs : s ⊆ fgSet img) : growStep img s ⊆ fgSet img := by
  intro q hq
  rcases Finset.mem_union.mp hq with hq | hq
  · exact hs hq
  · exact Finset.mem_of_mem_filter q hq

theorem iterate_growStep_subset {h w : Nat} (img : Img h w) (n : Nat)
    {s : Finset (Fin h × Fin w)} (hs : s ⊆ fgSet img) :
    (growStep img)^[n] s ⊆ fgSet img := by
  induction n generalizing s with
  | zero => exact hs
  | succ n ih =>
    rw [Function.iterate_succ_apply]
    exact ih (growStep_subset img hs)

theorem compOf_subset_fgSet {h w : Nat} (img : Img h w) (p : Fin h × Fin w) :
    compOf img p ⊆ fgSet img := by
  unfold compOf
  exact iterate_growStep_subset img _ (Finset.filter_subset _ _)

theorem fg_of_sameComp {h w : Nat} {img : Img h w} {p q : Fin h × Fin w}
    (hq : sameComp img p q) : 0 < (img q.1 q.2).a := by
  have hmem := compOf_subset_fgSet img p hq
  simpa [fgSet] using hmem

theorem label_pos_of_fg {h w : Nat} {img : Img h w} {num : Nat}
    {labels : Fin h × Fin w → Nat} (hspec : LabelsSpec img num labels)
    {p : Fin h × Fin w} (hp : 0 < (img p.1 p.2).a) : 1 ≤ labels p := by
  rcases Nat.eq_zero_or_pos (labels p) with h0 | h0
  · have := (hspec.1 p).mp h0
    omega
  · exact h0

theorem labelSize_eq_card {h w : Nat} {img : Img h w} {num : Nat}
    {labels : Fin h × Fin w → Nat} (hspec : LabelsSpec img num labels)
    {q : Fin h × Fin w} (hq : 0 < (img q.1 q.2).a) :
    labelSize labels (labels q) = (compOf img q).card := by
  unfold labelSize
  congr 1
  ext r
  simp only [Finset.mem_filter, Finset.mem_univ, true_and]
  have hlq : labels q ≠ 0 := by
    intro h0
    have := (hspec.1 q).mp h0
    omega
  constructor
  · intro hr
    have hrfg : 0 < (img r.1 r.2).a := by
      by_contra hc
      have h0 : (img r.1 r.2).a = 0 := by omega
      have hl0 : labels r = 0 := (hspec.1 r).mpr h0
      exact hlq (by rw [← hr]; exact hl0)
    exact (hspec.2.1 q r hq hrfg).mp hr.symm
  · intro hr
    have hrfg : 0 < (img r.1 r.2).a := fg_of_sameComp (p := q) hr
    exact ((hspec.2.1 q r hq hrfg).mpr hr).symm

theorem mem_range_drop_one {num i : Nat} :
    i ∈ (List.range num).drop 1 ↔ 1 ≤ i ∧ i < num := by
  cases num with
  | zero => simp
  | succ n =>
    rw [List.range_succ_eq_map]
    simp only [List.drop_succ_cons, List.drop_zero, List.mem_map, List.mem_range]
    constructor
    · rintro ⟨a, ha, rfl⟩
      omega
    · rintro ⟨h1, h2⟩
      exact ⟨i - 1, by omega, by omega⟩

theorem mem_componentSizes {h w : Nat} {labels : Fin h × Fin w → Nat}
    {num : Nat} {x : Nat × Nat} :
    x ∈ componentSizes labels num ↔
      x.1 = labelSize labels x.2 ∧ 1 ≤ x.2 ∧ x.2 < num := by
  obtain ⟨s, i⟩ := x
  unfold componentSizes
  rw [List.mem_map]
  constructor
  · rintro ⟨k, hk, hek⟩
    obtain ⟨rfl, rfl⟩ : labelSize labels k = s ∧ k = i := by
      exact ⟨congrArg Prod.fst hek, congrArg Prod.snd hek⟩
    exact ⟨rfl, mem_range_drop_one.mp hk⟩
  · rintro ⟨h1, h2, h3⟩
    exact ⟨i, mem_range_drop_one.mpr ⟨h2, h3⟩, by rw [← h1]⟩

theorem sortDesc_perm (l : List (Nat × Nat)) : (sortDesc l).Perm l :=
  List.perm_insertionSort pairGe l

theorem sortDesc_sorted (l : List (Nat × Nat)) : List.Sorted pairGe (sortDesc l) :=
  List.sorted_insertionSort pairGe l

theorem pairGe_fst {x y : Nat × Nat} (hxy : pairGe x y) : y.1 ≤ x.1 := by
  unfold pairGe at hxy
  omega

theorem head_pairGe {x y : Nat × Nat} {xs : List (Nat × Nat)}
    (hs : List.Sorted pairGe (x :: xs)) (hy : y ∈ x :: xs) : pairGe x y := by
  rcases List.mem_cons.mp hy with rfl | hy
  · unfold pairGe
    omega
  · exact (List.sorted_cons.mp hs).1 y hy

/-- C10. The `connect_character_elements` transform of `bgremover.py` is
the identity on every input: the dilated support mask contains every
visible pixel (both kernels contain their centre), so multiplying the
alpha channel by the dilated 0/1 mask changes no pixel, and the early
return on at most one component is also the identity. -/
theorem claim_C10_connect_character_identity {h w : Nat} (num : Nat)
    (img : Img h w) : BGRemover.connect_character_elements num img = img := by
  unfold BGRemover.connect_character_elements
  split_ifs with hn
  · rfl
  · funext i j
    refine Pix.ext rfl rfl rfl ?_
    by_cases ha : 0 < (img i j).a
    · have hd : dilateB ellipse5Kernel
          (dilateB crossKernel (fun p => decide (0 < (img p.1 p.2).a))) (i, j) = true := by
        apply dilateB_self (by decide)
        apply dilateB_self (by decide)
        simpa using ha
      rw [if_pos hd, Nat.mul_one]
    · have ha0 : (img i j).a = 0 := by omega
      rw [ha0, Nat.zero_mul]

theorem keepLoop_acc_append (total : Nat) (l : List (Nat × Nat)) (acc : List Nat)
    (hacc : acc ≠ []) :
    keepLoop total l acc =
      acc ++ (l.filter fun x => decide (pctGe1 total x.1)).map Prod.snd := by
  induction l generalizing acc with
  | nil => simp [keepLoop]
  | cons x rest ih =>
    obtain ⟨size, lab⟩ := x
    rw [keepLoop]
    split_ifs with h1
    · rw [ih (acc ++ [lab]) (by simp)]
      simp [List.filter_cons, h1]
    · rw [ih acc hacc]
      simp [List.filter_cons, h1]

theorem keepLoop_nil_cons (total : Nat) (x : Nat × Nat)
    (rest : List (Nat × Nat)) :
    keepLoop total (x :: rest) [] =
      x.2 :: (rest.filter fun y => decide (pctGe1 total y.1)).map Prod.snd := by
  obtain ⟨size, lab⟩ := x
  rw [keepLoop]
  split_ifs with h1 h2
  · rw [List.nil_append, keepLoop_acc_append total rest [lab] (by simp)]
    rfl
  · rw [List.nil_append, keepLoop_acc_append total rest [lab] (by simp)]
    rfl
  · exact absurd rfl h2

theorem mergeLoop_spec {h w : Nat} (labels : Fin h × Fin w → Nat)
    (expanded : Fin h × Fin w → Bool) (l : List (Nat × Nat))
    (m : Fin h × Fin w → Bool) (p : Fin h × Fin w) :
    Isnet.mergeLoop labels expanded l m p = true ↔
      m p = true ∨ ∃ sl ∈ l, sl.1 < 1000 ∧
        (∃ r, expanded r = true ∧ labels r = sl.2) ∧ labels p = sl.2 := by
  induction l generalizing m with
  | nil => simp [Isnet.mergeLoop]
  | cons x rest ih =>
    obtain ⟨size, lab⟩ := x
    unfold Isnet.mergeLoop at ih ⊢
    rw [List.foldl_cons, ih]
    simp only [List.mem_cons]
    split_ifs with hc
    · constructor
      · rintro (hm | hx)
        · rw [Bool.or_eq_true] at hm
          rcases hm with hm | hm
          · exact Or.inl hm
          · exact Or.inr ⟨(size, lab), Or.inl rfl, hc.1, hc.2, by simpa using hm⟩
        · obtain ⟨sl, hsl, hrest⟩ := hx
          exact Or.inr ⟨sl, Or.inr hsl, hrest⟩
      · rintro (hm | ⟨sl, hsl | hsl, hrest⟩)
        · refine Or.inl ?_
          rw [Bool.or_eq_true]
          exact Or.inl hm
        · subst hsl
          refine Or.inl ?_
          rw [Bool.or_eq_true]
          refine Or.inr ?_
          simpa using hrest.2.2
        · exact Or.inr ⟨sl, hsl, hrest⟩
    · constructor
      · rintro (hm | hx)
        · exact Or.inl hm
        · obtain ⟨sl, hsl, hrest⟩ := hx
          exact Or.inr ⟨sl, Or.inr hsl, hrest⟩
      · rintro (hm | ⟨sl, hsl | hsl, hrest⟩)
        · exact Or.inl hm
        · subst hsl
          exact absurd ⟨hrest.1, hrest.2.1⟩ hc
        · exact Or.inr ⟨sl, hsl, hrest⟩

theorem componentSizes_length {h w : Nat} (labels : Fin h × Fin w → Nat)
    (num : Nat) : (componentSizes labels num).length = num - 1 := by
  unfold componentSizes
  rw [List.length_map, List.length_drop, List.length_range]

theorem sortDesc_componentSizes_ne_nil {h w : Nat}
    (labels : Fin h × Fin w → Nat) {num : Nat} (hnum : 3 ≤ num) :
    sortDesc (componentSizes labels num) ≠ [] := by
  intro hnil
  have hlen := congrArg List.length hnil
  rw [(sortDesc_perm (componentSizes labels num)).length_eq,
    componentSizes_length] at hlen
  simp at hlen
  omega

theorem entry_mem_componentSizes {h w : Nat} {img : Img h w} {num : Nat}
    {labels : Fin h × Fin w → Nat} (hspec : LabelsSpec img num labels)
    {p : Fin h × Fin w} (hp : 0 < (img p.1 p.2).a) :
    (labelSize labels (labels p), labels p) ∈ componentSizes labels num :=
  mem_componentSizes.mpr ⟨rfl, label_pos_of_fg hspec hp, hspec.2.2.1 p⟩

theorem head_label_of_strict_max {h w : Nat} {img : Img h w} {num : Nat}
    {labels : Fin h × Fin w → Nat} (hspec : LabelsSpec img num labels)
    {p : Fin h × Fin w} (hp : 0 < (img p.1 p.2).a)
    (hmax : ∀ q, 0 < (img q.1 q.2).a → ¬ sameComp img p q →
      (compOf img q).card < (compOf img p).card)
    {s0 : Nat × Nat} {tl : List (Nat × Nat)}
    (hS : sortDesc (componentSizes labels num) = s0 :: tl) :
    s0.2 = labels p := by
  have hs0S : s0 ∈ s0 :: tl := List.mem_cons_self _ _
  rw [← hS] at hs0S
  have hs0mem : s0 ∈ componentSizes labels num := (sortDesc_perm _).mem_iff.mp hs0S
  obtain ⟨hsz, hge1, hlt2⟩ := mem_componentSizes.mp hs0mem
  obtain ⟨q, hq⟩ := hspec.2.2.2.1 s0.2 hge1 hlt2
  have hqfg : 0 < (img q.1 q.2).a := by
    by_contra hc
    have h0 : (img q.1 q.2).a = 0 := by omega
    have hl0 : labels q = 0 := (hspec.1 q).mpr h0
    omega
  have hcardq : s0.1 = (compOf img q).card := by
    rw [hsz, ← hq]
    exact labelSize_eq_card hspec hqfg
  have hsorted : List.Sorted pairGe (s0 :: tl) := by
    rw [← hS]
    exact sortDesc_sorted _
  have hpe : (labelSize labels (labels p), labels p) ∈ s0 :: tl := by
    rw [← hS]
    exact (sortDesc_perm _).mem_iff.mpr (entry_mem_componentSizes hspec hp)
  have hge : labelSize labels (labels p) ≤ s0.1 := pairGe_fst (head_pairGe hsorted hpe)
  have hcardp : labelSize labels (labels p) = (compOf img p).card :=
    labelSize_eq_card hspec hp
  by_cases hsc : sameComp img p q
  · have heq : labels p = labels q := (hspec.2.1 p q hp hqfg).mpr hsc
    omega
  · exfalso
    have hltc := hmax q hqfg hsc
    omega

theorem entry_in_tail_of_smaller {h w : Nat} {img : Img h w} {num : Nat}
    {labels : Fin h × Fin w → Nat} (hspec : LabelsSpec img num labels)
    {p : Fin h × Fin w} (hp : 0 < (img p.1 p.2).a)
    (hsmall : ∃ q, 0 < (img q.1 q.2).a ∧ ¬ sameComp img p q ∧
      (compOf img p).card < (compOf img q).card)
    {s0 : Nat × Nat} {tl : List (Nat × Nat)}
    (hS : sortDesc (componentSizes labels num) = s0 :: tl) :
    labels p ≠ s0.2 ∧ (labelSize labels (labels p), labels p) ∈ tl := by
  obtain ⟨q, hqfg, hqns, hlt⟩ := hsmall
  have hsorted : List.Sorted pairGe (s0 :: tl) := by
    rw [← hS]
    exact sortDesc_sorted _
  have hqe : (labelSize labels (labels q), labels q) ∈ s0 :: tl := by
    rw [← hS]
    exact (sortDesc_perm _).mem_iff.mpr (entry_mem_componentSizes hspec hqfg)
  have hpe : (labelSize labels (labels p), labels p) ∈ s0 :: tl := by
    rw [← hS]
    exact (sortDesc_perm _).mem_iff.mpr (entry_mem_componentSizes hspec hp)
  have hcardp : labelSize labels (labels p) = (compOf img p).card :=
    labelSize_eq_card hspec hp
  have hcardq : labelSize labels (labels q) = (compOf img q).card :=
    labelSize_eq_card hspec hqfg
  have hgeq : labelSize labels (labels q) ≤ s0.1 := pairGe_fst (head_pairGe hsorted hqe)
  have hs0S : s0 ∈ s0 :: tl := List.mem_cons_self _ _
  rw [← hS] at hs0S
  obtain ⟨hsz, hge1, hlt2⟩ :=
    mem_componentSizes.mp ((sortDesc_perm _).mem_iff.mp hs0S)
  have hne : labels p ≠ s0.2 := by
    intro heq
    rw [heq] at hcardp
    omega
  refine ⟨hne, ?_⟩
  rcases List.mem_cons.mp hpe with heq | hmem
  · exact absurd (congrArg Prod.snd heq) hne
  · exact hmem

theorem connect_main_components_apply {h w : Nat} (num : Nat)
    (labels : Fin h × Fin w → Nat) (img : Img h w) (hn : ¬ num ≤ 2)
    (i : Fin h) (j : Fin w) :
    (Clean.connect_main_components num labels img i j).a =
      (img i j).a *
        (if labels (i, j) ∈ keepLoop (h * w) (sortDesc (componentSizes labels num)) []
         then 1 else 0) := by
  unfold Clean.connect_main_components
  rw [if_neg hn]

theorem connect_components_apply {h w : Nat} (num : Nat)
    (labels : Fin h × Fin w → Nat) (img : Img h w) (hn : ¬ num ≤ 2)
    (i : Fin h) (j : Fin w) :
    (Isnet.connect_components num labels img i j).a =
      (img i j).a *
        (if Isnet.mergeLoop labels (Isnet.expandedMain labels num)
            (sortDesc (componentSizes labels num)).tail
            (Isnet.mainMask labels num) (i, j) = true
         then 1 else 0) := by
  unfold Isnet.connect_components
  rw [if_neg hn]

/-- C2 (amended). Neither Component Reconciler ever drops the strictly
largest connected component, and `connect_main_components` keeps every
component whose area fraction is at least 1%; but in `connect_components`
of `bg_remover.py` there is no area-fraction criterion — a non-largest
component survives only through the size-below-1000 proximity rescue
(see the counterexample dropping a component whose fraction meets the
threshold). -/
theorem claim_C2_amended {h w : Nat} (img : Img h w) (num : Nat)
    (labels : Fin h × Fin w → Nat) (hspec : LabelsSpec img num labels)
    (p : Fin h × Fin w) (hp : 0 < (img p.1 p.2).a) :
    ((∀ q, 0 < (img q.1 q.2).a → ¬ sameComp img p q →
        (compOf img q).card < (compOf img p).card) →
      ((Clean.connect_main_components num labels img) p.1 p.2).a = (img p.1 p.2).a ∧
      ((Isnet.connect_components num labels img) p.1 p.2).a = (img p.1 p.2).a) ∧
    (pctGe1 (h * w) (compOf img p).card →
      ((Clean.connect_main_components num labels img) p.1 p.2).a = (img p.1 p.2).a) := by
  constructor
  · intro hmax
    by_cases hn : num ≤ 2
    · unfold Clean.connect_main_components Isnet.connect_components
      rw [if_pos hn, if_pos hn]
      exact ⟨rfl, rfl⟩
    · obtain ⟨s0, tl, hS⟩ : ∃ x l, sortDesc (componentSizes labels num) = x :: l := by
        rcases hsplit : sortDesc (componentSizes labels num) with _ | ⟨x, l⟩
        · exact absurd hsplit (sortDesc_componentSizes_ne_nil labels (by omega))
        · exact ⟨x, l, rfl⟩
      have hhead := head_label_of_strict_max hspec hp hmax hS
      constructor
      · rw [connect_main_components_apply num labels img hn]
        have hmem : labels (p.1, p.2) ∈
            keepLoop (h * w) (sortDesc (componentSizes labels num)) [] := by
          rw [hS, keepLoop_nil_cons]
          exact List.mem_cons.mpr (Or.inl hhead.symm)
        rw [if_pos hmem, Nat.mul_one]
      · rw [connect_components_apply num labels img hn]
        have hmm : Isnet.mainMask labels num (p.1, p.2) = true := by
          unfold Isnet.mainMask Isnet.mainLabel
          rw [hS]
          simp [hhead]
        have hml : Isnet.mergeLoop labels (Isnet.expandedMain labels num)
            (sortDesc (componentSizes labels num)).tail
            (Isnet.mainMask labels num) (p.1, p.2) = true :=
          (mergeLoop_spec _ _ _ _ _).mpr (Or.inl hmm)
        rw [if_pos hml, Nat.mul_one]
  · intro hpct
    by_cases hn : num ≤ 2
    · unfold Clean.connect_main_components
      rw [if_pos hn]
    · have hpe : (labelSize labels (labels p), labels p) ∈
          sortDesc (componentSizes labels num) :=
        (sortDesc_perm _).mem_iff.mpr (entry_mem_componentSizes hspec hp)
      obtain ⟨s0, tl, hS⟩ : ∃ x l, sortDesc (componentSizes labels num) = x :: l := by
        rcases hsplit : sortDesc (componentSizes labels num) with _ | ⟨x, l⟩
        · exact absurd hsplit (sortDesc_componentSizes_ne_nil labels (by omega))
        · exact ⟨x, l, rfl⟩
      rw [connect_main_components_apply num labels img hn]
      have hcardp : labelSize labels (labels p) = (compOf img p).card :=
        labelSize_eq_card hspec hp
      have hmem : labels (p.1, p.2) ∈
          keepLoop (h * w) (sortDesc (componentSizes labels num)) [] := by
        rw [hS, keepLoop_nil_cons]
        rw [hS] at hpe
        rcases List.mem_cons.mp hpe with heq | hmem2
        · exact List.mem_cons.mpr (Or.inl (congrArg Prod.snd heq))
        · refine List.mem_cons.mpr (Or.inr ?_)
          rw [List.mem_map]
          refine ⟨(labelSize labels (labels p), labels p), ?_, rfl⟩
          rw [List.mem_filter]
          refine ⟨hmem2, ?_⟩
          rw [decide_eq_true_eq, hcardp]
          exact hpct
      rw [if_pos hmem, Nat.mul_one]

/-- C5 (amended). For a visible pixel whose component is strictly smaller
than some other component: `connect_main_components` keeps it exactly
when its component covers at least 1% of the pixels (and drops it to
opacity 0 otherwise — in particular a 0.3% blob away from the main blob
is dropped), with no proximity rescue; `connect_components` of
`bg_remover.py` keeps it exactly when its component has fewer than 1000
pixels and meets the twice-cross-dilated main component, with no
area-fraction criterion. -/
theorem claim_C5_amended {h w : Nat} (img : Img h w) (num : Nat)
    (labels : Fin h × Fin w → Nat) (hspec : LabelsSpec img num labels)
    (p : Fin h × Fin w) (hp : 0 < (img p.1 p.2).a)
    (hsmall : ∃ q, 0 < (img q.1 q.2).a ∧ ¬ sameComp img p q ∧
      (compOf img p).card < (compOf img q).card) :
    (((Clean.connect_main_components num labels img) p.1 p.2).a = (img p.1 p.2).a ↔
      pctGe1 (h * w) (compOf img p).card) ∧
    (¬ pctGe1 (h * w) (compOf img p).card →
      ((Clean.connect_main_components num labels img) p.1 p.2).a = 0) ∧
    (((Isnet.connect_components num labels img) p.1 p.2).a = (img p.1 p.2).a ↔
      ((compOf img p).card < 1000 ∧
        ∃ r, Isnet.expandedMain labels num r = true ∧ sameComp img p r)) := by
  obtain ⟨q, hqfg, hqns, hlt⟩ := hsmall
  have hlq : labels p ≠ labels q := fun heq => hqns ((hspec.2.1 p q hp hqfg).mp heq)
  have h1p := label_pos_of_fg hspec hp
  have h1q := label_pos_of_fg hspec hqfg
  have hup := hspec.2.2.1 p
  have huq := hspec.2.2.1 q
  have hn : ¬ num ≤ 2 := by omega
  obtain ⟨s0, tl, hS⟩ : ∃ x l, sortDesc (componentSizes labels num) = x :: l := by
    rcases hsplit : sortDesc (componentSizes labels num) with _ | ⟨x, l⟩
    · exact absurd hsplit (sortDesc_componentSizes_ne_nil labels (by omega))
    · exact ⟨x, l, rfl⟩
  obtain ⟨hne, htail⟩ := entry_in_tail_of_smaller hspec hp ⟨q, hqfg, hqns, hlt⟩ hS
  have hcardp : labelSize labels (labels p) = (compOf img p).card :=
    labelSize_eq_card hspec hp
  have hkept : (labels (p.1, p.2) ∈
      keepLoop (h * w) (sortDesc (componentSizes labels num)) []) ↔
      pctGe1 (h * w) (compOf img p).card := by
    rw [hS, keepLoop_nil_cons]
    constructor
    · intro hmem
      rcases List.mem_cons.mp hmem with heq | hmem2
      · exact absurd heq hne
      · rw [List.mem_map] at hmem2
        obtain ⟨y, hyf, hy2⟩ := hmem2
        rw [List.mem_filter] at hyf
        obtain ⟨hytl, hyd⟩ := hyf
        rw [decide_eq_true_eq] at hyd
        have hyS : y ∈ componentSizes labels num := by
          have hy1 : y ∈ s0 :: tl := List.mem_cons.mpr (Or.inr hytl)
          rw [← hS] at hy1
          exact (sortDesc_perm _).mem_iff.mp hy1
        obtain ⟨hy1, -, -⟩ := mem_componentSizes.mp hyS
        rw [hy1, hy2] at hyd
        rw [hcardp] at hyd
        exact hyd
    · intro hpct
      refine List.mem_cons.mpr (Or.inr ?_)
      rw [List.mem_map]
      refine ⟨(labelSize labels (labels p), labels p), ?_, rfl⟩
      rw [List.mem_filter]
      refine ⟨htail, ?_⟩
      rw [decide_eq_true_eq, hcardp]
      exact hpct
  refine ⟨?_, ?_, ?_⟩
  · rw [connect_main_components_apply num labels img hn]
    split_ifs with hm
    · rw [Nat.mul_one]
      exact iff_of_true rfl (hkept.mp hm)
    · rw [Nat.mul_zero]
      exact iff_of_false (by omega) (fun hpct => hm (hkept.mpr hpct))
  · intro hnp
    rw [connect_main_components_apply num labels img hn]
    rw [if_neg (fun hm => hnp (hkept.mp hm)), Nat.mul_zero]
  · rw [connect_components_apply num labels img hn]
    have hmm : Isnet.mainMask labels num (p.1, p.2) = false := by
      unfold Isnet.mainMask Isnet.mainLabel
      rw [hS]
      simp only [List.headD_cons]
      exact beq_eq_false_iff_ne.mpr hne
    have hiff : (Isnet.mergeLoop labels (Isnet.expandedMain labels num)
        (sortDesc (componentSizes labels num)).tail
        (Isnet.mainMask labels num) (p.1, p.2) = true) ↔
        ((compOf img p).card < 1000 ∧
          ∃ r, Isnet.expandedMain labels num r = true ∧ sameComp img p r) := by
      rw [hS]
      simp only [List.tail_cons]
      rw [mergeLoop_spec]
      constructor
      · rintro (habs | ⟨sl, hsl, h1000, ⟨r, hexp, hlr⟩, hlp⟩)
        · rw [hmm] at habs
          exact Bool.noConfusion habs
        · have hslS : sl ∈ componentSizes labels num := by
            have hy1 : sl ∈ s0 :: tl := List.mem_cons.mpr (Or.inr hsl)
            rw [← hS] at hy1
            exact (sortDesc_perm _).mem_iff.mp hy1
          obtain ⟨hsz, hge1, -⟩ := mem_componentSizes.mp hslS
          have hlp2 : labels p = sl.2 := hlp
          have hrfg : 0 < (img r.1 r.2).a := by
            by_contra hc
            have h0 : (img r.1 r.2).a = 0 := by omega
            have hl0 : labels r = 0 := (hspec.1 r).mpr h0
            omega
          refine ⟨?_, r, hexp, ?_⟩
          · have hszp : sl.1 = labelSize labels (labels p) := by rw [hsz, hlp2]
            omega
          · exact (hspec.2.1 p r hp hrfg).mp (hlp2.trans hlr.symm)
      · rintro ⟨hcard, r, hexp, hsc⟩
        refine Or.inr ⟨(labelSize labels (labels p), labels p), htail, ?_,
          ⟨r, hexp, ?_⟩, rfl⟩
        · omega
        · exact ((hspec.2.1 p r hp (fg_of_sameComp hsc)).mpr hsc).symm
    split_ifs with hm
    · rw [Nat.mul_one]
      exact iff_of_true rfl (hiff.mp hm)
    · rw [Nat.mul_zero]
      exact iff_of_false (by omega) (fun hc => hm (hiff.mpr hc))

/-- Counterexample for C2: in `connect_components` of `bg_remover.py` the
one-pixel component at (3,3) of `exCC` covers 6.25% of the image — its
area fraction meets the 1% threshold — yet the reconciled output drops
it (opacity 0). -/
theorem claim_C2_counterexample :
    LabelsSpec exCC 3 exCCLabels ∧
    0 < (exCC 3 3).a ∧
    pctGe1 16 (compOf exCC ((3 : Fin 4), (3 : Fin 4))).card ∧
    ((Isnet.connect_components 3 exCCLabels exCC) 3 3).a = 0 := by
  with_unfolding_all decide

/-- Counterexample for C5: the one-pixel component at (3,3) of `exCC5` is
not the largest component and its 6.25% area fraction meets the 1%
threshold, yet `connect_components` drops it. -/
theorem claim_C5_counterexample :
    LabelsSpec exCC5 3 exCC5Labels ∧
    0 < (exCC5 3 3).a ∧
    (∃ q, 0 < (exCC5 q.1 q.2).a ∧
      ¬ sameComp exCC5 ((3 : Fin 4), (3 : Fin 4)) q ∧
      (compOf exCC5 ((3 : Fin 4), (3 : Fin 4))).card < (compOf exCC5 q).card) ∧
    pctGe1 16 (compOf exCC5 ((3 : Fin 4), (3 : Fin 4))).card ∧
    ((Isnet.connect_components 3 exCC5Labels exCC5) 3 3).a = 0 := by
  with_unfolding_all decide

/-- Witness for C2 (amended) at the strictly largest component of
`exCompImg` (pixel (0,0)). -/
theorem claim_C2_amended_witness :
    LabelsSpec exCompImg 3 exCompLabels ∧
    0 < (exCompImg 0 0).a ∧
    (((∀ q, 0 < (exCompImg q.1 q.2).a →
        ¬ sameComp exCompImg ((0 : Fin 1), (0 : Fin 4)) q →
        (compOf exCompImg q).card <
          (compOf exCompImg ((0 : Fin 1), (0 : Fin 4))).card) →
      ((Clean.connect_main_components 3 exCompLabels exCompImg) 0 0).a =
        (exCompImg 0 0).a ∧
      ((Isnet.connect_components 3 exCompLabels exCompImg) 0 0).a =
        (exCompImg 0 0).a) ∧
    (pctGe1 (1 * 4) (compOf exCompImg ((0 : Fin 1), (0 : Fin 4))).card →
      ((Clean.connect_main_components 3 exCompLabels exCompImg) 0 0).a =
        (exCompImg 0 0).a)) :=
  ⟨by with_unfolding_all decide, by decide,
    claim_C2_amended exCompImg 3 exCompLabels (by with_unfolding_all decide)
      ((0 : Fin 1), (0 : Fin 4)) (by decide)⟩

/-- Witness for C5 (amended) at the smaller component of `exCompImg`
(pixel (0,3)). -/
theorem claim_C5_amended_witness :
    LabelsSpec exCompImg 3 exCompLabels ∧
    0 < (exCompImg 0 3).a ∧
    (∃ q, 0 < (exCompImg q.1 q.2).a ∧
      ¬ sameComp exCompImg ((0 : Fin 1), (3 : Fin 4)) q ∧
      (compOf exCompImg ((0 : Fin 1), (3 : Fin 4))).card <
        (compOf exCompImg q).card) ∧
    ((((Clean.connect_main_components 3 exCompLabels exCompImg) 0 3).a =
        (exCompImg 0 3).a ↔
      pctGe1 (1 * 4) (compOf exCompImg ((0 : Fin 1), (3 : Fin 4))).card) ∧
    (¬ pctGe1 (1 * 4) (compOf exCompImg ((0 : Fin 1), (3 : Fin 4))).card →
      ((Clean.connect_main_components 3 exCompLabels exCompImg) 0 3).a = 0) ∧
    (((Isnet.connect_components 3 exCompLabels exCompImg) 0 3).a =
        (exCompImg 0 3).a ↔
      ((compOf exCompImg ((0 : Fin 1), (3 : Fin 4))).card < 1000 ∧
        ∃ r, Isnet.expandedMain exCompLabels 3 r = true ∧
          sameComp exCompImg ((0 : Fin 1), (3 : Fin 4)) r))) :=
  ⟨by with_unfolding_all decide, by decide, by with_unfolding_all decide,
    claim_C5_amended exCompImg 3 exCompLabels (by with_unfolding_all decide)
      ((0 : Fin 1), (3 : Fin 4)) (by decide) (by with_unfolding_all decide)⟩

theorem toByte_natCast (n : Nat) : toByte ((n : ℚ)) = n := by
  unfold toByte
  rw [Int.floor_natCast]
  omega

theorem toByte_255 : toByte (255 : ℚ) = 255 := by
  have h255 : ((255 : Nat) : ℚ) = (255 : ℚ) := by norm_num
  rw [← h255, toByte_natCast]

theorem clipToByte_natCast_le (n : Nat) (hn : n ≤ 255) :
    clipToByte ((n : ℚ)) = n := by
  unfold clipToByte
  have h1 : ((n : ℚ)) ≤ 255 := by exact_mod_cast hn
  have h2 : (0 : ℚ) ≤ (n : ℚ) := Nat.cast_nonneg n
  rw [min_eq_left h1, max_eq_right h2, Int.floor_natCast]
  omega

/-- C3 (amended). `smooth_edges_preserve`, `smooth_edges_conservative` of
the archive script and `smooth_edges` leave every pixel of pre-blur
opacity 255 at exactly 255, for every Gaussian kernel; but
`_smooth_edges_conservative` of `core.py` preserves a fully opaque pixel
only off the morphological-gradient edge — on the edge (that is, on the
foreground/background boundary) it overwrites the pixel with the clipped
blurred value. -/
theorem claim_C3_amended {h w : Nat} (c : ℚ) (img : Img h w) (i : Fin h)
    (j : Fin w) (ha : (img i j).a = 255) :
    ((BGRemover.smooth_edges_preserve c img) i j).a = 255 ∧
    ((Clean.smooth_edges_conservative c img) i j).a = 255 ∧
    ((Isnet.smooth_edges c img) i j).a = 255 ∧
    (Core.gradMask img (i, j) = false →
      ((Core.smooth_edges_conservative c img) i j).a = 255) ∧
    (Core.gradMask img (i, j) = true →
      ((Core.smooth_edges_conservative c img) i j).a =
        clipToByte (blur3 c (alphaQ img) i j)) := by
  have haQ : alphaQ img i j = 255 := by
    unfold alphaQ
    rw [ha]
    norm_num
  have hnedge : ¬ (0 < alphaQ img i j ∧ alphaQ img i j < 255) := by
    rw [haQ]
    norm_num
  refine ⟨?_, ?_, ?_, ?_, ?_⟩
  · unfold BGRemover.smooth_edges_preserve
    rw [if_neg hnedge, haQ, toByte_255]
  · unfold Clean.smooth_edges_conservative
    rw [if_neg hnedge, haQ, toByte_255]
  · unfold Isnet.smooth_edges
    rw [if_pos haQ, toByte_255]
  · intro hg
    unfold Core.smooth_edges_conservative
    rw [if_neg (by rw [hg]; exact Bool.false_ne_true), haQ]
    have h255 : ((255 : Nat) : ℚ) = (255 : ℚ) := by norm_num
    rw [← h255, clipToByte_natCast_le 255 (by omega)]
  · intro hg
    unfold Core.smooth_edges_conservative
    rw [if_pos hg]

/-- Witness for C3 (amended) on the fully opaque 2×2 image `exC3w`, with
the concrete kernel parameter 27/200. -/
theorem claim_C3_amended_witness :
    (exC3w 0 0).a = 255 ∧
    (((BGRemover.smooth_edges_preserve (27/200) exC3w) 0 0).a = 255 ∧
    ((Clean.smooth_edges_conservative (27/200) exC3w) 0 0).a = 255 ∧
    ((Isnet.smooth_edges (27/200) exC3w) 0 0).a = 255 ∧
    (Core.gradMask exC3w (0, 0) = false →
      ((Core.smooth_edges_conservative (27/200) exC3w) 0 0).a = 255) ∧
    (Core.gradMask exC3w (0, 0) = true →
      ((Core.smooth_edges_conservative (27/200) exC3w) 0 0).a =
        clipToByte (blur3 (27/200) (alphaQ exC3w) 0 0))) :=
  ⟨by decide, claim_C3_amended (27/200) exC3w 0 0 (by decide)⟩

/-- Counterexample for C3: the fully opaque boundary pixel (0,0) of
`exC3` comes out of `_smooth_edges_conservative` (`core.py`) with
opacity 158, not 255, for the explicit kernel parameter 27/200 (the
value of `exp(-1/(2σ²))` for σ = 0.5 is about 0.1353; any positive
parameter drops the pixel below 255). -/
theorem claim_C3_counterexample :
    (exC3 0 0).a = 255 ∧
    ((Core.smooth_edges_conservative (27/200) exC3) 0 0).a = 158 ∧
    ¬ ((Core.smooth_edges_conservative (27/200) exC3) 0 0).a = 255 := by
  with_unfolding_all decide

theorem preservesRGB_comp {h w : Nat} {f g : Img h w → Img h w}
    (hf : preservesRGB f) (hg : preservesRGB g) :
    preservesRGB (fun img => f (g img)) := by
  intro img i j
  obtain ⟨r1, g1, b1⟩ := hf (g img) i j
  obtain ⟨r2, g2, b2⟩ := hg img i j
  exact ⟨r1.trans r2, g1.trans g2, b1.trans b2⟩

/-- C9. Every embedded refinement stage — transparency resolution,
component reconciliation, residual-colour filtering and edge smoothing,
in all their variants — writes only the alpha channel, and therefore the
composed pipelines return the colour channels they were fed. -/
theorem claim_C9_rgb_preserved (h w : Nat) (c : ℚ) (t num : Nat)
    (labels : Fin h × Fin w → Nat) :
    preservesRGB (h := h) (w := w) (BGRemover.fix_partial_transparencies t) ∧
    preservesRGB (h := h) (w := w) (Clean.clean_partial_transparencies t) ∧
    preservesRGB (h := h) (w := w) (BGRemover.connect_character_elements num) ∧
    preservesRGB (h := h) (w := w) (Isnet.connect_components num labels) ∧
    preservesRGB (h := h) (w := w) (Clean.connect_main_components num labels) ∧
    preservesRGB (h := h) (w := w) Core.connect_character_elements ∧
    preservesRGB (h := h) (w := w) BGRemover.remove_background_whites_only ∧
    preservesRGB (h := h) (w := w) Clean.remove_white_pixels_advanced ∧
    preservesRGB (h := h) (w := w) Isnet.remove_white_pixels ∧
    preservesRGB (h := h) (w := w) Core.remove_background_whites_only ∧
    preservesRGB (h := h) (w := w) (BGRemover.smooth_edges_preserve c) ∧
    preservesRGB (h := h) (w := w) (Clean.smooth_edges_conservative c) ∧
    preservesRGB (h := h) (w := w) (Isnet.smooth_edges c) ∧
    preservesRGB (h := h) (w := w) (Core.smooth_edges_conservative c) ∧
    preservesRGB (h := h) (w := w) (BGRemover.preservePipeline c num t) ∧
    preservesRGB (h := h) (w := w) (Core.preserve_elements_pipeline t) := by
  have hfix : preservesRGB (h := h) (w := w) (BGRemover.fix_partial_transparencies t) :=
    fun img i j => ⟨rfl, rfl, rfl⟩
  have hclean : preservesRGB (h := h) (w := w) (Clean.clean_partial_transparencies t) :=
    fun img i j => ⟨rfl, rfl, rfl⟩
  have hcce : preservesRGB (h := h) (w := w) (BGRemover.connect_character_elements num) := by
    intro img i j
    unfold BGRemover.connect_character_elements
    split_ifs <;> exact ⟨rfl, rfl, rfl⟩
  have hcc : preservesRGB (h := h) (w := w) (Isnet.connect_components num labels) := by
    intro img i j
    unfold Isnet.connect_components
    split_ifs <;> exact ⟨rfl, rfl, rfl⟩
  have hcmc : preservesRGB (h := h) (w := w) (Clean.connect_main_components num labels) := by
    intro img i j
    unfold Clean.connect_main_components
    split_ifs <;> exact ⟨rfl, rfl, rfl⟩
  have hccc : preservesRGB (h := h) (w := w) Core.connect_character_elements := by
    intro img i j
    unfold Core.connect_character_elements
    split_ifs <;> exact ⟨rfl, rfl, rfl⟩
  have hwo : preservesRGB (h := h) (w := w) BGRemover.remove_background_whites_only := by
    intro img i j
    unfold BGRemover.remove_background_whites_only
    split_ifs
    case _ => dsimp only; split_ifs <;> exact ⟨rfl, rfl, rfl⟩
    all_goals exact ⟨rfl, rfl, rfl⟩
  have hwa : preservesRGB (h := h) (w := w) Clean.remove_white_pixels_advanced := by
    intro img i j
    unfold Clean.remove_white_pixels_advanced
    split_ifs
    case _ => dsimp only; split_ifs <;> exact ⟨rfl, rfl, rfl⟩
    all_goals exact ⟨rfl, rfl, rfl⟩
  have hwp : preservesRGB (h := h) (w := w) Isnet.remove_white_pixels := by
    intro img i j
    unfold Isnet.remove_white_pixels
    split_ifs
    case _ => dsimp only; split_ifs <;> exact ⟨rfl, rfl, rfl⟩
    all_goals exact ⟨rfl, rfl, rfl⟩
  have hwc : preservesRGB (h := h) (w := w) Core.remove_background_whites_only := by
    intro img i j
    unfold Core.remove_background_whites_only
    split_ifs <;> exact ⟨rfl, rfl, rfl⟩
  have hsp : preservesRGB (h := h) (w := w) (BGRemover.smooth_edges_preserve c) :=
    fun img i j => ⟨rfl, rfl, rfl⟩
  have hsc : preservesRGB (h := h) (w := w) (Clean.smooth_edges_conservative c) :=
    fun img i j => ⟨rfl, rfl, rfl⟩
  have hse : preservesRGB (h := h) (w := w) (Isnet.smooth_edges c) :=
    fun img i j => ⟨rfl, rfl, rfl⟩
  have hscc : preservesRGB (h := h) (w := w) (Core.smooth_edges_conservative c) :=
    fun img i j => ⟨rfl, rfl, rfl⟩
  refine ⟨hfix, hclean, hcce, hcc, hcmc, hccc, hwo, hwa, hwp, hwc, hsp, hsc, hse, hscc,
    ?_, ?_⟩
  · have hcomp := preservesRGB_comp hsp
      (preservesRGB_comp hwo (preservesRGB_comp hcce hfix))
    intro img i j
    exact hcomp img i j
  · have hcomp := preservesRGB_comp hwc (preservesRGB_comp hccc hfix)
    intro img i j
    exact hcomp img i j
